import Mathlib

/-
Shallow embedding of the White House executive-actions watcher
(src/EXECUTIVEORDERS.py) and proofs about its change-detection,
state-reconciliation and persistence logic.

Conventions of the embedding:
- Python dict items become a structure `Item` with the five keys used by the
  script ('title', 'date', 'url', 'eo_number', 'tipo').
- The persisted state dict is abstracted as a total function `String → String`
  where an absent key is the empty string; this is exactly the interface the
  script uses (`state.get(tipo_key, "")` and `state[tipo_key] = url`).
- The HTML layer is abstracted as a list of candidate posts (`Post`), each with
  an optional title link and an optional time attribute, mirroring the two
  `select_one` calls per post.
- The regular expression used to classify titles is implemented as an
  executable matcher (`extractNum`) that follows the Python pattern
  verbatim, with ASCII word/space classes standing in for the unicode ones.
- Side effects of `main` (console prints, notifications, the single `save`)
  become an event trace (`Ev`).
- `save_state` becomes a sequence of file-system operations (partial writes to
  the temporary path followed by one atomic rename), and the state file
  becomes a map from path to optional content.
-/

/-- One discovered presidential action, as built by `fetch_whitehouse_list`. -/
structure Item where
  title : String
  date : String
  url : String
  eo_number : Option String
  tipo : String
deriving DecidableEq, Repr

/-- Word character for the word-boundary assertion of the Python regex
(`\w`, restricted to ASCII letters, digits and underscore). -/
def isWordChar (c : Char) : Bool := c.isAlphanum || c == '_'

/-- Whitespace class of the Python regex (`\s`). -/
def isSpaceChar (c : Char) : Bool := c.isWhitespace

/-- Character class `[0-9\-]` of the capture group. -/
def isNumChar (c : Char) : Bool := c.isDigit || c == '-'

/-- Consume a literal: returns the remaining input when `lit` heads `input`. -/
def dropLit : List Char → List Char → Option (List Char)
  | [], l => some l
  | _ :: _, [] => none
  | p :: ps, c :: cs => if c == p then dropLit ps cs else none

/-- Word-char status of an optional character; the end of the string counts as
a non-word position for `\b`. -/
def wordAt : Option Char → Bool
  | none => false
  | some c => isWordChar c

/-- Word boundary `\b` between a last consumed character and the next one. -/
def boundaryAfter (c : Char) (next : Option Char) : Bool :=
  isWordChar c != wordAt next

/-- All lengths `k` such that the first `k` characters of the `[0-9\-]` run can
end the capture group, i.e. a word boundary holds right after them. -/
def goodLens (run : List Char) (next : Option Char) : List Nat :=
  (List.range run.length).filterMap (fun i =>
    match run.get? i with
    | none => none
    | some c =>
      let nxt := match run.get? (i + 1) with
        | some d => some d
        | none => next
      if boundaryAfter c nxt then some (i + 1) else none)

/-- Match `\s*([0-9\-]+)\b` at the head of `l`, returning the capture group.
The group is greedy, so the longest admissible run prefix is returned. -/
def matchDigits (l : List Char) : Option (List Char) :=
  let l2 := l.dropWhile isSpaceChar
  let run := l2.takeWhile isNumChar
  let next := (l2.drop run.length).head?
  match (goodLens run next).foldl (fun a b => if a < b then b else a) 0 with
  | 0 => none
  | Nat.succ k => some (run.take (k + 1))

/-- Match `\s*No\.?` followed by `\s*([0-9\-]+)\b`; the optional dot is
greedy, so the variant with the dot is tried first. -/
def tryNo (l : List Char) : Option (List Char) :=
  match dropLit "no".data (l.dropWhile isSpaceChar) with
  | none => none
  | some r =>
    match r with
    | '.' :: r2 =>
      match matchDigits r2 with
      | some g => some g
      | none => matchDigits r
    | _ => matchDigits r

/-- Alternative `Executive Order\s*No\.?` of the pattern (input lowercased). -/
def altEO1 (l : List Char) : Option (List Char) :=
  match dropLit "executive order".data l with
  | some r => tryNo r
  | none => none

/-- Alternative `EO` of the pattern. -/
def altEO2 (l : List Char) : Option (List Char) :=
  match dropLit "eo".data l with
  | some r => matchDigits r
  | none => none

/-- Alternative `Proclamation(?:\s*No\.?)?` of the pattern; the optional
no-group is greedy, so the variant with it is tried first. -/
def altPR (l : List Char) : Option (List Char) :=
  match dropLit "proclamation".data l with
  | some r =>
    match tryNo r with
    | some g => some g
    | none => matchDigits r
  | none => none

/-- The ordered alternation of the pattern at one position. -/
def matchAlts (l : List Char) : Option (List Char) :=
  match altEO1 l with
  | some g => some g
  | none =>
    match altEO2 l with
    | some g => some g
    | none => altPR l

/-- Scan for the leftmost position with a word boundary where the alternation
matches, as `re.search` does; `prev` is the character before the position. -/
def scanTitle : Option Char → List Char → Option (List Char)
  | _, [] => none
  | prev, c :: rest =>
    match (if wordAt prev then none else matchAlts (c :: rest)) with
    | some g => some g
    | none => scanTitle (some c) rest

/-- Model of
`re.search(r"\b(?:Executive Order\s*No\.?|EO|Proclamation(?:\s*No\.?)?)\s*([0-9\-]+)\b", title, re.IGNORECASE)`,
returning the capture group. Case folding is done by lowercasing the whole
title; the group consists of digits and hyphens, which lowercasing fixes. -/
def extractNum (title : String) : Option String :=
  (scanTitle none (title.data.map Char.toLower)).map (fun g => String.mk g)

/-- One candidate post of the listing page: the optional title anchor
(`select_one(".wp-block-post-title a[href]")`, text and href) and the
optional `datetime` attribute of a `time` element. -/
structure Post where
  anchor : Option (String × String)
  timeAttr : Option String
deriving DecidableEq, Repr

/-- Relative hrefs (`href.startswith("/")`) are made absolute against the
site root. -/
def absolutize (href : String) : String :=
  if (dropLit "/".data href.data).isSome then "https://www.whitehouse.gov" ++ href
  else href

/-- Substring test, modelling Python's `"proclamation" in URL`. -/
def hasSubList (needle : List Char) : List Char → Bool
  | [] => needle.isEmpty
  | c :: rest => (dropLit needle (c :: rest)).isSome || hasSubList needle rest

def WHITEHOUSE_EO_URL : String :=
  "https://www.whitehouse.gov/presidential-actions/executive-orders/"

def WHITEHOUSE_PR_URL : String :=
  "https://www.whitehouse.gov/presidential-actions/proclamations/"

/-- Category tag derived from the listing URL
(`tipo = "Proclamation" if "proclamation" in URL else "Executive Order"`). -/
def tipoOf (URL : String) : String :=
  if hasSubList "proclamation".data URL.data then "Proclamation"
  else "Executive Order"

/-- Loop body of `fetch_whitehouse_list`: posts without an anchor or whose
title has no recognizable number are skipped; the loop breaks once
`len(out) >= max_items`, checked after each append, so `budget` is
`max_items - len(out)`. -/
def fetchGo (tipo : String) : Nat → List Post → List Item
  | _, [] => []
  | budget, p :: rest =>
    match p.anchor with
    | none => fetchGo tipo budget rest
    | some (title, href) =>
      match extractNum title with
      | none => fetchGo tipo budget rest
      | some n =>
        let it : Item :=
          ⟨title, p.timeAttr.getD "", absolutize href, some n, tipo⟩
        if budget ≤ 1 then [it] else it :: fetchGo tipo (budget - 1) rest

/-- Model of `fetch_whitehouse_list(URL, max_items)`: the HTTP and
BeautifulSoup layers are abstracted into the already-selected `posts`. -/
def fetch_whitehouse_list (URL : String) (posts : List Post)
    (max_items : Nat) : List Item :=
  fetchGo (tipoOf URL) max_items posts


/-- Python's `html.escape` on one character (quote=True default). -/
def escChar (c : Char) : String :=
  if c.toNat == 38 then "&amp;"        -- ampersand
  else if c.toNat == 60 then "&lt;"    -- less-than sign
  else if c.toNat == 62 then "&gt;"    -- greater-than sign
  else if c.toNat == 34 then "&quot;"  -- double quote
  else if c.toNat == 39 then "&#x27;"  -- single quote
  else String.mk [c]

/-- Python's `html.escape`. -/
def htmlEscape (s : String) : String := String.join (s.data.map escChar)

/-- Model of `format_alert`: the five labelled lines joined by newlines.
`item.get("eo_number") or "s/n"` maps both a missing and an empty number to
the placeholder. -/
def format_alert (item : Item) : String :=
  String.intercalate "\n"
    [ "🚨 Nueva " ++ item.tipo ++ " detectada"
    , "• *Título:* " ++ htmlEscape item.title
    , "• *Fecha (WH):* " ++ item.date
    , "• *Número:* " ++
        (match item.eo_number with
          | none => "s/n"
          | some s => if s == "" then "s/n" else s)
    , "• *Enlace:* " ++ item.url ]

/-- The persisted state dict, abstracted as a total map; an absent key reads
as the empty string, which is what `state.get(tipo_key, "")` yields. -/
def StateMap : Type := String → String

/-- Model of `state[key] = v`. -/
def stSet (st : StateMap) (k v : String) : StateMap :=
  fun q => if q == k then v else st q

/-- Per-category collection loop of `main`:
`for it in tipo_items: if it["url"] == last_seen: break; new_items.append(it)`. -/
def collectNew (last_seen : String) : List Item → List Item
  | [] => []
  | it :: rest =>
    if it.url == last_seen then [] else it :: collectNew last_seen rest

/-- The combined `new_items` list of one run: the loop over
`["Executive Order", "Proclamation"]` appends both categories' collections
into a single list, each category filtered out of the combined listing. -/
def newItemsOf (eoItems prItems : List Item) (state : StateMap) : List Item :=
  let items := eoItems ++ prItems
  collectNew (state "Executive Order")
      (items.filter (fun it => it.tipo == "Executive Order"))
    ++ collectNew (state "Proclamation")
      (items.filter (fun it => it.tipo == "Proclamation"))

/-- One iteration of the final loop of `main`:
`if tipo_new_items: state[tipo_key] = tipo_new_items[-1]["url"]`. -/
def updOne (tipo_key : String) (state : StateMap) (new_items : List Item) :
    StateMap :=
  match (new_items.filter (fun it => it.tipo == tipo_key)).getLast? with
  | none => state
  | some it => stSet state tipo_key it.url

/-- The state after the final loop of `main` (Executive Order first, then
Proclamation, as in the Python list literal). -/
def updState (state : StateMap) (new_items : List Item) : StateMap :=
  updOne "Proclamation" (updOne "Executive Order" state new_items) new_items

/-- Observable events of one run: a notification (`notify(msg)`), the single
state save (`save_state(state_path, state)`), or an informational print. -/
inductive Ev where
  | note (msg : String)
  | save (st : StateMap)
  | info (msg : String)

/-- Event trace of `main`, given the two fetched listings and the loaded
state. Mirrors the control flow of lines 139-178 of the script: early return
when the combined listing is empty, early return when nothing is new,
otherwise one notification per new item in reversed order followed by exactly
one save and the final status line. -/
def runMain (eoItems prItems : List Item) (state : StateMap) : List Ev :=
  let items := eoItems ++ prItems
  if items.isEmpty then
    [Ev.info "[info] No se encontraron items en la lista (DOM pudo cambiar)."]
  else
    let new_items := newItemsOf eoItems prItems state
    if new_items.isEmpty then [Ev.info "[ok] Sin novedades."]
    else
      new_items.reverse.map (fun it => Ev.note (format_alert it))
        ++ [Ev.save (updState state new_items),
            Ev.info "[done] Estado actualizado."]

def isNote : Ev → Bool
  | .note _ => true
  | _ => false

def isSave : Ev → Bool
  | .save _ => true
  | _ => false

/-- The notification messages of a trace, in order. -/
def notesOf (tr : List Ev) : List String :=
  tr.filterMap (fun e => match e with | .note m => some m | _ => none)

/-- The mappings passed to `save_state` in a trace, in order. -/
def saveMaps (tr : List Ev) : List StateMap :=
  tr.filterMap (fun e => match e with | .save m => some m | _ => none)

/-- The per-category watermark visible after a run: the first saved mapping
when the run saved, the unchanged prior state otherwise. -/
def effState (eoItems prItems : List Item) (state : StateMap) : StateMap :=
  ((saveMaps (runMain eoItems prItems state)).head?).getD state

/-- The order in which the run processes (notifies) its new items. -/
def processedOf (eoItems prItems : List Item) (state : StateMap) : List Item :=
  (newItemsOf eoItems prItems state).reverse

/-- Lexicographic strictly-less on character lists (executable). -/
def charsLt : List Char → List Char → Bool
  | [], [] => false
  | [], _ :: _ => true
  | _ :: _, [] => false
  | x :: xs, y :: ys => if x < y then true else if y < x then false else charsLt xs ys

/-- Item `a` was published strictly before item `b`, comparing the `date`
strings lexicographically (ISO dates compare chronologically this way). -/
def dateBefore (a b : Item) : Bool := charsLt a.date.data b.date.data

/-- Oldest-first order over a sequence of items, judged by their
`date` field: no item is followed by a strictly older one. -/
def datesOldestFirst (l : List Item) : Prop :=
  List.Chain' (fun a b => dateBefore b a = false) l

/-- The url of the last element of a listing fragment, or a default. -/
def lastUrlOr (dflt : String) (l : List Item) : String :=
  match l.getLast? with
  | none => dflt
  | some it => it.url

/-- File-system contents: path to optional file content. -/
def FState : Type := String → Option String

/-- File-system operations issued by `save_state`: a (possibly partial) write
to a path, and `os.replace` (atomic rename). -/
inductive FsOp where
  | fswrite (path content : String)
  | fsreplace (src dst : String)

def applyOp (fs : FState) : FsOp → FState
  | .fswrite p c => fun q => if q == p then some c else fs q
  | .fsreplace src dst =>
      fun q => if q == dst then fs src else if q == src then none else fs q

def applyOps (fs : FState) (ops : List FsOp) : FState := ops.foldl applyOp fs

/-- Operation sequence of `save_state(path, data)`: the serialized `content`
is written to `path + ".tmp"` (a crash can leave any prefix of it, so every
intermediate prefix state appears as a write), ending with the full content,
then `os.replace` renames the temporary file over the real path in one step. -/
def save_state_ops (path content : String) : List FsOp :=
  ((List.range content.length).map
      (fun k => FsOp.fswrite (path ++ ".tmp") (String.mk (content.data.take k))))
    ++ [FsOp.fswrite (path ++ ".tmp") content,
        FsOp.fsreplace (path ++ ".tmp") path]

/-- JSON values, as produced by `json.load`. -/
inductive Json where
  | jnull
  | jbool (b : Bool)
  | jnum (n : Int)
  | jstr (s : String)
  | jarr (elems : List Json)
  | jobj (fields : List (String × Json))

/-- Input situation of `load_state`: the state file is absent, or it exists
and `json.load` either raises (`none`) or returns a JSON value. -/
inductive LoadInput where
  | absent
  | present (parsed : Option Json)

/-- Model of `load_state`: a missing file and a raising `json.load` both give
the empty dict; any successfully parsed value is returned unchanged. -/
def load_state : LoadInput → Json
  | .absent => .jobj []
  | .present none => .jobj []
  | .present (some j) => j

/-- Spec example listing `[A,B,C,D]` (newest-first), Executive Order items. -/
def itA : Item :=
  ⟨"Executive Order No. 14104", "2025-01-04",
    "https://www.whitehouse.gov/a", some "14104", "Executive Order"⟩

def itB : Item :=
  ⟨"Executive Order No. 14103", "2025-01-03",
    "https://www.whitehouse.gov/b", some "14103", "Executive Order"⟩

def itC : Item :=
  ⟨"Executive Order No. 14102", "2025-01-02",
    "https://www.whitehouse.gov/c", some "14102", "Executive Order"⟩

def itD : Item :=
  ⟨"Executive Order No. 14101", "2025-01-01",
    "https://www.whitehouse.gov/d", some "14101", "Executive Order"⟩

/-- An Executive Order item dated before `itP`. -/
def itE : Item :=
  ⟨"Executive Order No. 14201", "2025-01-01",
    "https://www.whitehouse.gov/e", some "14201", "Executive Order"⟩

/-- A Proclamation item dated after `itE`. -/
def itP : Item :=
  ⟨"Proclamation 10999", "2025-01-02",
    "https://www.whitehouse.gov/p", some "10999", "Proclamation"⟩

/-- State with no watermarks (missing keys read as the empty string). -/
def stEmpty : StateMap := fun _ => ""

/-- State whose Executive Order watermark is the url of `itC`. -/
def stC : StateMap :=
  fun k => if k == "Executive Order" then "https://www.whitehouse.gov/c" else ""

/-- State that differs from `stEmpty` only in the Proclamation watermark. -/
def stP : StateMap :=
  fun k => if k == "Proclamation" then "https://www.whitehouse.gov/old-p" else ""

/-- A post whose title carries an order number. -/
def pGood : Post :=
  ⟨some ("Executive Order No. 14100", "/presidential-actions/eo-14100/"),
    some "2025-02-01"⟩

/-- A post whose title has no order/proclamation number token. -/
def pBad : Post := ⟨some ("Fact Sheet: Something", "/fact-sheet/"), none⟩

/-- A post with no title link at all. -/
def pNone : Post := ⟨none, none⟩

/-- The item `fetch_whitehouse_list` builds from `pGood` on the EO endpoint. -/
def itG : Item :=
  ⟨"Executive Order No. 14100", "2025-02-01",
    "https://www.whitehouse.gov/presidential-actions/eo-14100/",
    some "14100", "Executive Order"⟩

/-- A file-system state for the save-interruption witness. -/
def fsW : FState := fun q => if q == "state.json" then some "old" else none

section Lemmas

/-- The collection loop takes exactly the prefix of items whose url differs
from the watermark. -/
theorem collectNew_eq_takeWhile (w : String) (l : List Item) :
    collectNew w l = l.takeWhile (fun it => it.url != w) := by
  induction l with
  | nil => rfl
  | cons it rest ih =>
    by_cases h : it.url = w
    · simp [collectNew, List.takeWhile_cons, h]
    · simp [collectNew, List.takeWhile_cons, h, ih]

theorem mem_of_mem_collectNew {w : String} {l : List Item} {it : Item}
    (h : it ∈ collectNew w l) : it ∈ l := by
  induction l with
  | nil => simp [collectNew] at h
  | cons a rest ih =>
    by_cases ha : a.url = w
    · simp [collectNew, ha] at h
    · simp only [collectNew, ha] at h
      rw [if_neg (by simp [ha])] at h
      rcases List.mem_cons.mp h with h | h
      · exact h ▸ List.mem_cons_self a rest
      · exact List.mem_cons_of_mem a (ih h)

/-- When the watermark matches no url, the whole listing is collected. -/
theorem collectNew_of_no_match {w : String} {l : List Item}
    (h : ∀ it ∈ l, it.url ≠ w) : collectNew w l = l := by
  induction l with
  | nil => rfl
  | cons a rest ih =>
    have ha : a.url ≠ w := h a (List.mem_cons_self a rest)
    simp only [collectNew]
    rw [if_neg (by simp [ha])]
    rw [ih (fun it hit => h it (List.mem_cons_of_mem a hit))]

theorem notesOf_append (a b : List Ev) :
    notesOf (a ++ b) = notesOf a ++ notesOf b := by
  simp [notesOf, List.filterMap_append]

theorem saveMaps_append (a b : List Ev) :
    saveMaps (a ++ b) = saveMaps a ++ saveMaps b := by
  simp [saveMaps, List.filterMap_append]

theorem notesOf_noteTrace (f : Item → String) (l : List Item) :
    notesOf (l.map (fun it => Ev.note (f it))) = l.map f := by
  induction l with
  | nil => rfl
  | cons a rest ih => simp [notesOf] at ih ⊢; exact ih

theorem saveMaps_noteTrace (f : Item → String) (l : List Item) :
    saveMaps (l.map (fun it => Ev.note (f it))) = [] := by
  induction l with
  | nil => rfl
  | cons a rest _ => simp [saveMaps]

/-- An empty combined listing collects nothing for either category. -/
theorem newItemsOf_of_nil {eoItems prItems : List Item} (st : StateMap)
    (h : eoItems ++ prItems = []) : newItemsOf eoItems prItems st = [] := by
  simp [newItemsOf, h, collectNew]

/-- The notifications of a run are the new items in reversed order, one
formatted message each. -/
theorem notesOf_runMain (eoItems prItems : List Item) (st : StateMap) :
    notesOf (runMain eoItems prItems st)
      = (newItemsOf eoItems prItems st).reverse.map format_alert := by
  unfold runMain
  by_cases h1 : (eoItems ++ prItems).isEmpty
  · have hnil : eoItems ++ prItems = [] := by simpa using h1
    simp [h1, notesOf, newItemsOf_of_nil st hnil]
  · by_cases h2 : (newItemsOf eoItems prItems st).isEmpty
    · have hnil : newItemsOf eoItems prItems st = [] := by simpa using h2
      simp [h1, h2, notesOf, hnil]
    · simp only [h1, h2, if_neg, Bool.false_eq_true, not_false_eq_true]
      rw [notesOf_append, notesOf_noteTrace]
      simp [notesOf]

/-- A run saves nothing when there is nothing new, and exactly the updated
mapping otherwise. -/
theorem saveMaps_runMain (eoItems prItems : List Item) (st : StateMap) :
    saveMaps (runMain eoItems prItems st)
      = if (newItemsOf eoItems prItems st).isEmpty then []
        else [updState st (newItemsOf eoItems prItems st)] := by
  unfold runMain
  by_cases h1 : (eoItems ++ prItems).isEmpty
  · have hnil : eoItems ++ prItems = [] := by simpa using h1
    have : newItemsOf eoItems prItems st = [] := newItemsOf_of_nil st hnil
    simp [h1, saveMaps, this]
  · by_cases h2 : (newItemsOf eoItems prItems st).isEmpty
    · simp [h1, h2, saveMaps]
    · simp only [h1, h2, Bool.false_eq_true, if_neg, not_false_eq_true]
      rw [saveMaps_append, saveMaps_noteTrace]
      simp [saveMaps]

end Lemmas

section Lemmas2

theorem updState_key_EO (st : StateMap) (ni : List Item) :
    updState st ni "Executive Order"
      = lastUrlOr (st "Executive Order")
          (ni.filter (fun it => it.tipo == "Executive Order")) := by
  have hne : (("Executive Order" : String) == "Proclamation") = false := by
    decide
  unfold updState updOne lastUrlOr
  cases h2 : (ni.filter (fun it => it.tipo == "Proclamation")).getLast? with
  | none =>
    cases h1 : (ni.filter (fun it => it.tipo == "Executive Order")).getLast? with
    | none => simp
    | some it => simp [stSet]
  | some itp =>
    cases h1 : (ni.filter (fun it => it.tipo == "Executive Order")).getLast? with
    | none => simp [stSet, hne]
    | some it => simp [stSet, hne]

theorem updState_key_PR (st : StateMap) (ni : List Item) :
    updState st ni "Proclamation"
      = lastUrlOr (st "Proclamation")
          (ni.filter (fun it => it.tipo == "Proclamation")) := by
  have hne : (("Proclamation" : String) == "Executive Order") = false := by
    decide
  unfold updState updOne lastUrlOr
  cases h2 : (ni.filter (fun it => it.tipo == "Proclamation")).getLast? with
  | none =>
    cases h1 : (ni.filter (fun it => it.tipo == "Executive Order")).getLast? with
    | none => simp
    | some it => simp [stSet, hne]
  | some itp =>
    cases h1 : (ni.filter (fun it => it.tipo == "Executive Order")).getLast? with
    | none => simp [stSet]
    | some it => simp [stSet]

/-- Filtering the combined new-items list back to the Executive Order
category recovers exactly that category's collection. -/
theorem newItems_filter_EO (eoItems prItems : List Item) (st : StateMap) :
    (newItemsOf eoItems prItems st).filter
        (fun it => it.tipo == "Executive Order")
      = collectNew (st "Executive Order")
          ((eoItems ++ prItems).filter
            (fun it => it.tipo == "Executive Order")) := by
  unfold newItemsOf
  rw [List.filter_append]
  have h1 : (collectNew (st "Executive Order")
        ((eoItems ++ prItems).filter
          (fun it => it.tipo == "Executive Order"))).filter
        (fun it => it.tipo == "Executive Order")
      = collectNew (st "Executive Order")
          ((eoItems ++ prItems).filter
            (fun it => it.tipo == "Executive Order")) := by
    refine List.filter_eq_self.mpr (fun a ha => ?_)
    exact (List.mem_filter.mp (mem_of_mem_collectNew ha)).2
  have h2 : (collectNew (st "Proclamation")
        ((eoItems ++ prItems).filter
          (fun it => it.tipo == "Proclamation"))).filter
        (fun it => it.tipo == "Executive Order") = [] := by
    refine List.filter_eq_nil_iff.mpr (fun a ha => ?_)
    have hpr : a.tipo = "Proclamation" := by
      have := (List.mem_filter.mp (mem_of_mem_collectNew ha)).2
      simpa using this
    simp [hpr]
  rw [h1, h2, List.append_nil]

theorem newItems_filter_PR (eoItems prItems : List Item) (st : StateMap) :
    (newItemsOf eoItems prItems st).filter
        (fun it => it.tipo == "Proclamation")
      = collectNew (st "Proclamation")
          ((eoItems ++ prItems).filter
            (fun it => it.tipo == "Proclamation")) := by
  unfold newItemsOf
  rw [List.filter_append]
  have h1 : (collectNew (st "Executive Order")
        ((eoItems ++ prItems).filter
          (fun it => it.tipo == "Executive Order"))).filter
        (fun it => it.tipo == "Proclamation") = [] := by
    refine List.filter_eq_nil_iff.mpr (fun a ha => ?_)
    have heo : a.tipo = "Executive Order" := by
      have := (List.mem_filter.mp (mem_of_mem_collectNew ha)).2
      simpa using this
    simp [heo]
  have h2 : (collectNew (st "Proclamation")
        ((eoItems ++ prItems).filter
          (fun it => it.tipo == "Proclamation"))).filter
        (fun it => it.tipo == "Proclamation")
      = collectNew (st "Proclamation")
          ((eoItems ++ prItems).filter
            (fun it => it.tipo == "Proclamation")) := by
    refine List.filter_eq_self.mpr (fun a ha => ?_)
    exact (List.mem_filter.mp (mem_of_mem_collectNew ha)).2
  rw [h1, h2, List.nil_append]

/-- The Executive Order watermark visible after a run is the url of the last
collected Executive Order item, or the prior watermark when none was new. -/
theorem effState_key_EO (eoItems prItems : List Item) (st : StateMap) :
    effState eoItems prItems st "Executive Order"
      = lastUrlOr (st "Executive Order")
          (collectNew (st "Executive Order")
            ((eoItems ++ prItems).filter
              (fun it => it.tipo == "Executive Order"))) := by
  unfold effState
  rw [saveMaps_runMain]
  by_cases h2 : (newItemsOf eoItems prItems st).isEmpty
  · have hnil : newItemsOf eoItems prItems st = [] := by simpa using h2
    have hEO : collectNew (st "Executive Order")
        ((eoItems ++ prItems).filter
          (fun it => it.tipo == "Executive Order")) = [] := by
      have := newItems_filter_EO eoItems prItems st
      rw [hnil] at this
      exact this.symm
    rw [if_pos h2, hEO]
    simp [lastUrlOr]
  · simp only [h2, Bool.false_eq_true, if_neg, not_false_eq_true,
      List.head?_cons, Option.getD_some]
    rw [updState_key_EO, newItems_filter_EO]

theorem effState_key_PR (eoItems prItems : List Item) (st : StateMap) :
    effState eoItems prItems st "Proclamation"
      = lastUrlOr (st "Proclamation")
          (collectNew (st "Proclamation")
            ((eoItems ++ prItems).filter
              (fun it => it.tipo == "Proclamation"))) := by
  unfold effState
  rw [saveMaps_runMain]
  by_cases h2 : (newItemsOf eoItems prItems st).isEmpty
  · have hnil : newItemsOf eoItems prItems st = [] := by simpa using h2
    have hPR : collectNew (st "Proclamation")
        ((eoItems ++ prItems).filter
          (fun it => it.tipo == "Proclamation")) = [] := by
      have := newItems_filter_PR eoItems prItems st
      rw [hnil] at this
      exact this.symm
    rw [if_pos h2, hPR]
    simp [lastUrlOr]
  · simp only [h2, Bool.false_eq_true, if_neg, not_false_eq_true,
      List.head?_cons, Option.getD_some]
    rw [updState_key_PR, newItems_filter_PR]

end Lemmas2

/-- Claim C1. On the spec's own example — newest-first Executive Order listing
`[A,B,C,D]` with watermark `C` and the whole batch processed — the persisted
watermark is the url of `B`, the OLDEST newly processed item
(`tipo_new_items[-1]` of a newest-first list), not the url of `A`, the newest
one and first element of the listing as the claim states. The run does
process the whole batch (both notifications, oldest first). -/
theorem c1_watermark_set_to_oldest_new_item :
    effState [itA, itB, itC, itD] [] stC "Executive Order" = itB.url
    ∧ ([itA, itB, itC, itD].head?.map Item.url) = some itA.url
    ∧ itB.url ≠ itA.url
    ∧ notesOf (runMain [itA, itB, itC, itD] [] stC)
        = [format_alert itB, format_alert itA] := by
  refine ⟨?_, ?_, ?_, ?_⟩ <;> decide

/-- Claim C2. The reconciliation loop collects exactly the prefix of the
listing preceding the first watermark match (all of it when nothing matches,
including the absent-watermark case, which reads as the empty string), the
run processes the collected items in reversed (oldest-first) order, and a
category with an empty listing contributes zero new items and keeps its
watermark unchanged. -/
theorem c2_reconciliation_prefix_and_reverse (l : List Item) (w : String)
    (eoItems prItems : List Item) (st : StateMap) (k : String) :
    collectNew w l = l.takeWhile (fun it => it.url != w)
    ∧ ((∀ it ∈ l, it.url ≠ w) → collectNew w l = l)
    ∧ notesOf (runMain eoItems prItems st)
        = (newItemsOf eoItems prItems st).reverse.map format_alert
    ∧ ((k = "Executive Order" ∨ k = "Proclamation") →
        (eoItems ++ prItems).filter (fun it => it.tipo == k) = [] →
        (newItemsOf eoItems prItems st).filter (fun it => it.tipo == k) = []
          ∧ effState eoItems prItems st k = st k) := by
  refine ⟨collectNew_eq_takeWhile w l, collectNew_of_no_match,
    notesOf_runMain eoItems prItems st, ?_⟩
  rintro (rfl | rfl) hempty
  · rw [newItems_filter_EO, hempty, effState_key_EO, hempty]
    exact ⟨rfl, rfl⟩
  · rw [newItems_filter_PR, hempty, effState_key_PR, hempty]
    exact ⟨rfl, rfl⟩

theorem c2_witness :
    ((∀ it ∈ [itA], it.url ≠ "zzz") ∧ collectNew "zzz" [itA] = [itA])
    ∧ ((newItemsOf [itE] [] stEmpty).filter
          (fun it => it.tipo == "Proclamation") = []
        ∧ effState [itE] [] stEmpty "Proclamation"
            = stEmpty "Proclamation") := by
  refine ⟨⟨by decide, ?_⟩, ?_⟩
  · exact (c2_reconciliation_prefix_and_reverse [itA] "zzz" [] [] stEmpty
      "Proclamation").2.1 (by decide)
  · exact (c2_reconciliation_prefix_and_reverse [itA] "zzz" [itE] [] stEmpty
      "Proclamation").2.2.2 (Or.inr rfl) (by decide)

/-- Claim C3. Idempotence fails on the code: starting from no watermark, one
run over the listing `[A,B]` advances the Executive Order watermark to the
url of `B` (the oldest new item), so a second run over the same listing
collects `[A]` again and re-notifies it, instead of finding zero new items. -/
theorem c3_second_run_renotifies :
    effState [itA, itB] [] stEmpty "Executive Order" = itB.url
    ∧ newItemsOf [itA, itB] [] (effState [itA, itB] [] stEmpty) = [itA]
    ∧ notesOf (runMain [itA, itB] [] (effState [itA, itB] [] stEmpty))
        = [format_alert itA] := by
  refine ⟨?_, ?_, ?_⟩ <;> decide

/-- Claim C4, counterexample. With one new Executive Order item `itE` dated
2025-01-01 and one new Proclamation `itP` dated 2025-01-02, the run notifies
`itP` first and `itE` second: the emitted sequence is not oldest-first over
all new items of the run, because `reversed(new_items)` plays the whole
Proclamation block before the whole Executive Order block. -/
theorem c4_counterexample_not_globally_oldest_first :
    processedOf [itE] [itP] stEmpty = [itP, itE]
    ∧ dateBefore itE itP = true
    ∧ ¬ datesOldestFirst (processedOf [itE] [itP] stEmpty)
    ∧ notesOf (runMain [itE] [itP] stEmpty)
        = [format_alert itP, format_alert itE] := by
  have hordr : processedOf [itE] [itP] stEmpty = [itP, itE] := by decide
  have hdate : dateBefore itE itP = true := by decide
  refine ⟨hordr, hdate, ?_, by decide⟩
  intro hch
  rw [hordr, datesOldestFirst] at hch
  rw [(List.chain'_cons.mp hch).1] at hdate
  exact Bool.false_ne_true hdate

/-- Claim C4, amended. Within one run there is one formatted message per new
item; each category's messages appear oldest-first, but the whole
Proclamation block is emitted before the whole Executive Order block, so the
combined sequence is per-category chronological, not globally chronological. -/
theorem c4_one_message_per_item_per_category_oldest_first
    (eoItems prItems : List Item) (st : StateMap) :
    notesOf (runMain eoItems prItems st)
      = (newItemsOf eoItems prItems st).reverse.map format_alert
    ∧ (newItemsOf eoItems prItems st).reverse
      = (collectNew (st "Proclamation")
          ((eoItems ++ prItems).filter
            (fun it => it.tipo == "Proclamation"))).reverse
        ++ (collectNew (st "Executive Order")
          ((eoItems ++ prItems).filter
            (fun it => it.tipo == "Executive Order"))).reverse := by
  refine ⟨notesOf_runMain eoItems prItems st, ?_⟩
  unfold newItemsOf
  rw [List.reverse_append]

theorem filter_tag_self {l : List Item} {t : String}
    (h : ∀ it ∈ l, it.tipo = t) : l.filter (fun it => it.tipo == t) = l := by
  refine List.filter_eq_self.mpr (fun a ha => ?_)
  simp [h a ha]

theorem filter_tag_nil {l : List Item} {t t' : String}
    (h : ∀ it ∈ l, it.tipo = t) (hne : t ≠ t') :
    l.filter (fun it => it.tipo == t') = [] := by
  refine List.filter_eq_nil_iff.mpr (fun a ha => ?_)
  simp [h a ha, hne]

/-- Claim C5. Category isolation: two runs that differ only in the
Proclamation listing and Proclamation watermark produce the same Executive
Order new-items batch and the same Executive Order watermark afterwards, and
symmetrically with the categories swapped. The tag hypotheses record that
each fetched listing is uniformly tagged with its endpoint's category, as
`fetch_whitehouse_list` guarantees. -/
theorem c5_category_isolation :
    (∀ (eo pr pr' : List Item) (st st' : StateMap),
      (∀ it ∈ eo, it.tipo = "Executive Order") →
      (∀ it ∈ pr, it.tipo = "Proclamation") →
      (∀ it ∈ pr', it.tipo = "Proclamation") →
      st "Executive Order" = st' "Executive Order" →
      (newItemsOf eo pr st).filter (fun it => it.tipo == "Executive Order")
        = (newItemsOf eo pr' st').filter
            (fun it => it.tipo == "Executive Order")
      ∧ effState eo pr st "Executive Order"
          = effState eo pr' st' "Executive Order")
    ∧ (∀ (eo eo' pr : List Item) (st st' : StateMap),
      (∀ it ∈ eo, it.tipo = "Executive Order") →
      (∀ it ∈ eo', it.tipo = "Executive Order") →
      (∀ it ∈ pr, it.tipo = "Proclamation") →
      st "Proclamation" = st' "Proclamation" →
      (newItemsOf eo pr st).filter (fun it => it.tipo == "Proclamation")
        = (newItemsOf eo' pr st').filter (fun it => it.tipo == "Proclamation")
      ∧ effState eo pr st "Proclamation"
          = effState eo' pr st' "Proclamation") := by
  constructor
  · intro eo pr pr' st st' heo hpr hpr' hst
    have h1 : (eo ++ pr).filter (fun it => it.tipo == "Executive Order")
        = eo := by
      rw [List.filter_append, filter_tag_self heo,
        filter_tag_nil hpr (by decide), List.append_nil]
    have h2 : (eo ++ pr').filter (fun it => it.tipo == "Executive Order")
        = eo := by
      rw [List.filter_append, filter_tag_self heo,
        filter_tag_nil hpr' (by decide), List.append_nil]
    constructor
    · rw [newItems_filter_EO, newItems_filter_EO, h1, h2, hst]
    · rw [effState_key_EO, effState_key_EO, h1, h2, hst]
  · intro eo eo' pr st st' heo heo' hpr hst
    have h1 : (eo ++ pr).filter (fun it => it.tipo == "Proclamation")
        = pr := by
      rw [List.filter_append, filter_tag_nil heo (by decide),
        filter_tag_self hpr, List.nil_append]
    have h2 : (eo' ++ pr).filter (fun it => it.tipo == "Proclamation")
        = pr := by
      rw [List.filter_append, filter_tag_nil heo' (by decide),
        filter_tag_self hpr, List.nil_append]
    constructor
    · rw [newItems_filter_PR, newItems_filter_PR, h1, h2, hst]
    · rw [effState_key_PR, effState_key_PR, h1, h2, hst]

theorem c5_witness :
    ((newItemsOf [itE] [] stEmpty).filter
        (fun it => it.tipo == "Executive Order")
      = (newItemsOf [itE] [itP] stP).filter
          (fun it => it.tipo == "Executive Order"))
    ∧ effState [itE] [] stEmpty "Executive Order"
        = effState [itE] [itP] stP "Executive Order" := by
  exact c5_category_isolation.1 [itE] [] [itP] stEmpty stP
    (by decide) (by decide) (by decide) (by decide)

theorem fetchGo_sound (tipo : String) (posts : List Post) :
    ∀ (budget : Nat) (it : Item), it ∈ fetchGo tipo budget posts →
      it.eo_number = extractNum it.title
      ∧ (extractNum it.title).isSome = true := by
  induction posts with
  | nil => intro b it h; simp [fetchGo] at h
  | cons p rest ih =>
    intro b it h
    rw [fetchGo] at h
    cases ha : p.anchor with
    | none =>
      simp only [ha] at h
      exact ih b it h
    | some pair =>
      obtain ⟨title, href⟩ := pair
      cases hn : extractNum title with
      | none =>
        simp only [ha, hn] at h
        exact ih b it h
      | some n =>
        simp only [ha, hn] at h
        by_cases hb : b ≤ 1
        · rw [if_pos hb] at h
          rcases List.mem_singleton.mp h with rfl
          exact ⟨by simp [hn], by simp [hn]⟩
        · rw [if_neg hb] at h
          rcases List.mem_cons.mp h with rfl | h
          · exact ⟨by simp [hn], by simp [hn]⟩
          · exact ih (b - 1) it h

/-- Claim C6. Every item in the parsed listing output carries the number
extracted from its own title, and that extraction succeeded; hence an entry
whose title lacks an order/proclamation number token never appears in the
output, however many non-matching link elements the page contains. -/
theorem c6_output_items_have_numbers (URL : String) (posts : List Post)
    (max_items : Nat) (it : Item)
    (h : it ∈ fetch_whitehouse_list URL posts max_items) :
    it.eo_number = extractNum it.title
    ∧ (extractNum it.title).isSome = true :=
  fetchGo_sound (tipoOf URL) posts max_items it h

theorem c6_witness :
    itG ∈ fetch_whitehouse_list WHITEHOUSE_EO_URL [pNone, pBad, pGood] 20
    ∧ (itG.eo_number = extractNum itG.title
        ∧ (extractNum itG.title).isSome = true) :=
  ⟨by decide,
    c6_output_items_have_numbers WHITEHOUSE_EO_URL [pNone, pBad, pGood] 20 itG
      (by decide)⟩

theorem applyOps_append (fs : FState) (a b : List FsOp) :
    applyOps fs (a ++ b) = applyOps (applyOps fs a) b := by
  unfold applyOps
  rw [List.foldl_append]

/-- Writes that only touch `q` leave every other path unchanged. -/
theorem writes_preserve (ops : List FsOp) :
    ∀ (fs : FState) (p q : String),
      (∀ op ∈ ops, ∃ c, op = FsOp.fswrite q c) → (p == q) = false →
      applyOps fs ops p = fs p := by
  induction ops with
  | nil => intro fs p q _ _; rfl
  | cons op rest ih =>
    intro fs p q hall hne
    obtain ⟨c, rfl⟩ := hall op (List.mem_cons_self op rest)
    have step : applyOps fs (FsOp.fswrite q c :: rest)
        = applyOps (applyOp fs (FsOp.fswrite q c)) rest := rfl
    rw [step, ih (applyOp fs (FsOp.fswrite q c)) p q
      (fun o ho => hall o (List.mem_cons_of_mem _ ho)) hne]
    simp [applyOp, hne]

theorem tmp_ne_path (path : String) : ((path ++ ".tmp") = path) → False := by
  intro h
  have hlen := congrArg String.length h
  rw [String.length_append] at hlen
  have h4 : (".tmp" : String).length = 4 := by decide
  rw [h4] at hlen
  omega

/-- Claim C7. Interrupting `save_state` at any point before its final atomic
rename leaves the real path untouched (so a previously valid state file stays
valid and parseable), and the completed sequence installs exactly the full
serialized content at the real path. -/
theorem c7_save_atomic (path content : String) (fs : FState) (k : Nat)
    (hk : k < (save_state_ops path content).length) :
    applyOps fs ((save_state_ops path content).take k) path = fs path
    ∧ applyOps fs (save_state_ops path content) path = some content := by
  have hne : (path == path ++ ".tmp") = false := by
    refine beq_eq_false_iff_ne.mpr (fun h => ?_)
    exact tmp_ne_path path h.symm
  constructor
  · have hsplit : save_state_ops path content
        = ((List.range content.length).map
            (fun j => FsOp.fswrite (path ++ ".tmp")
              (String.mk (content.data.take j)))
          ++ [FsOp.fswrite (path ++ ".tmp") content])
          ++ [FsOp.fsreplace (path ++ ".tmp") path] := by
      unfold save_state_ops
      rw [List.append_assoc]
      rfl
    have hlen : k ≤ ((List.range content.length).map
          (fun j => FsOp.fswrite (path ++ ".tmp")
            (String.mk (content.data.take j)))
        ++ [FsOp.fswrite (path ++ ".tmp") content]).length := by
      have htot : (save_state_ops path content).length
          = content.length + 2 := by
        simp [save_state_ops]
      simp only [List.length_append, List.length_map, List.length_range,
        List.length_singleton]
      omega
    rw [hsplit, List.take_append_of_le_length hlen]
    refine writes_preserve _ fs path (path ++ ".tmp") (fun op hop => ?_) hne
    have hop2 := List.take_subset k _ hop
    rcases List.mem_append.mp hop2 with hop3 | hop3
    · obtain ⟨j, _, rfl⟩ := List.mem_map.mp hop3
      exact ⟨_, rfl⟩
    · rcases List.mem_singleton.mp hop3 with rfl
      exact ⟨_, rfl⟩
  · have hsplit : save_state_ops path content
        = (List.range content.length).map
            (fun j => FsOp.fswrite (path ++ ".tmp")
              (String.mk (content.data.take j)))
          ++ [FsOp.fswrite (path ++ ".tmp") content,
              FsOp.fsreplace (path ++ ".tmp") path] := rfl
    rw [hsplit, applyOps_append]
    simp [applyOps, applyOp]

theorem c7_witness :
    (1 < (save_state_ops "state.json" "ab").length)
    ∧ applyOps fsW ((save_state_ops "state.json" "ab").take 1) "state.json"
        = fsW "state.json"
    ∧ applyOps fsW (save_state_ops "state.json" "ab") "state.json"
        = some "ab" := by
  have h := c7_save_atomic "state.json" "ab" fsW 1 (by decide)
  exact ⟨by decide, h.1, h.2⟩

theorem filter_both_noteTrace (f : Item → String) (l : List Item) :
    (l.map (fun it => Ev.note (f it))).filter (fun e => isNote e || isSave e)
      = l.map (fun it => Ev.note (f it)) := by
  induction l with
  | nil => rfl
  | cons a rest _ => simp [isNote, isSave]

theorem filter_isNote_noteTrace (f : Item → String) (l : List Item) :
    (l.map (fun it => Ev.note (f it))).filter isNote
      = l.map (fun it => Ev.note (f it)) := by
  induction l with
  | nil => rfl
  | cons a rest _ => simp [isNote]

theorem filter_isSave_noteTrace (f : Item → String) (l : List Item) :
    (l.map (fun it => Ev.note (f it))).filter isSave = [] := by
  induction l with
  | nil => rfl
  | cons a rest _ => simp [isSave]

/-- Claim C8, counterexample. A run over two empty listings completes
normally — it emits exactly one informational event and returns — but it
performs zero saves, not exactly one. -/
theorem c8_counterexample_empty_run_never_saves :
    saveMaps (runMain [] [] stEmpty) = []
    ∧ notesOf (runMain [] [] stEmpty) = []
    ∧ (runMain [] [] stEmpty).length = 1 :=
  ⟨rfl, rfl, rfl⟩

/-- Claim C8, amended. A run saves at most once; any saved mapping is the
fully updated mapping across both categories; when the run found new items it
saves exactly once; and in every trace all notification events precede all
save events (filtering the trace to notes-and-saves puts every note first). -/
theorem c8_save_at_most_once_after_all_notifications
    (eoItems prItems : List Item) (st : StateMap) :
    (saveMaps (runMain eoItems prItems st)).length ≤ 1
    ∧ (∀ m ∈ saveMaps (runMain eoItems prItems st),
        m = updState st (newItemsOf eoItems prItems st))
    ∧ (newItemsOf eoItems prItems st ≠ [] →
        saveMaps (runMain eoItems prItems st)
          = [updState st (newItemsOf eoItems prItems st)])
    ∧ (runMain eoItems prItems st).filter (fun e => isNote e || isSave e)
        = (runMain eoItems prItems st).filter isNote
          ++ (runMain eoItems prItems st).filter isSave := by
  refine ⟨?_, ?_, ?_, ?_⟩
  · rw [saveMaps_runMain]
    by_cases h : (newItemsOf eoItems prItems st).isEmpty
    · simp [h]
    · simp [h]
  · rw [saveMaps_runMain]
    by_cases h : (newItemsOf eoItems prItems st).isEmpty
    · simp [h]
    · simp [h]
  · intro hne
    rw [saveMaps_runMain, if_neg (by simpa using hne)]
  · unfold runMain
    by_cases h1 : (eoItems ++ prItems).isEmpty
    · simp [h1, isNote, isSave]
    · by_cases h2 : (newItemsOf eoItems prItems st).isEmpty
      · simp [h1, h2, isNote, isSave]
      · simp only [h1, h2, Bool.false_eq_true, if_neg, not_false_eq_true]
        rw [List.filter_append, List.filter_append, List.filter_append,
          filter_both_noteTrace, filter_isNote_noteTrace,
          filter_isSave_noteTrace]
        simp [isNote, isSave]

theorem c8_witness :
    newItemsOf [itE] [] stEmpty ≠ []
    ∧ saveMaps (runMain [itE] [] stEmpty)
        = [updState stEmpty (newItemsOf [itE] [] stEmpty)]
    ∧ ∀ m ∈ saveMaps (runMain [itE] [] stEmpty),
        m = updState stEmpty (newItemsOf [itE] [] stEmpty) := by
  refine ⟨by decide,
    (c8_save_at_most_once_after_all_notifications [itE] [] stEmpty).2.2.1
      (by decide),
    (c8_save_at_most_once_after_all_notifications [itE] [] stEmpty).2.1⟩

/-- Claim C9, counterexample. A state file whose content parses as JSON but
is not an object mapping — here the array `[]`, a corrupt state file — is
returned as-is by `load_state`, not replaced by the empty mapping (the
script's `except` only guards the `json.load` call itself). -/
theorem c9_counterexample_parseable_non_mapping :
    load_state (LoadInput.present (some (Json.jarr []))) = Json.jarr []
    ∧ Json.jarr [] ≠ Json.jobj [] :=
  ⟨rfl, fun h => Json.noConfusion h⟩

/-- Claim C9, amended. `load_state` never raises: a missing file yields the
empty mapping, a file on which `json.load` raises yields the empty mapping,
and any successfully parsed JSON value — an object mapping or not — is
returned unchanged. -/
theorem c9_load_missing_and_unparseable_give_empty :
    load_state LoadInput.absent = Json.jobj []
    ∧ load_state (LoadInput.present none) = Json.jobj []
    ∧ ∀ j : Json, load_state (LoadInput.present (some j)) = j :=
  ⟨rfl, rfl, fun _ => rfl⟩

theorem fetchGo_length_le (tipo : String) (posts : List Post) :
    ∀ budget : Nat, 1 ≤ budget →
      (fetchGo tipo budget posts).length ≤ budget := by
  induction posts with
  | nil => intro b _; simp [fetchGo]
  | cons p rest ih =>
    intro b hb
    rw [fetchGo]
    cases ha : p.anchor with
    | none =>
      simp only [ha]
      exact ih b hb
    | some pair =>
      obtain ⟨title, href⟩ := pair
      simp only [ha]
      cases hn : extractNum title with
      | none =>
        simp only [hn]
        exact ih b hb
      | some n =>
        simp only [hn]
        by_cases hble : b ≤ 1
        · rw [if_pos hble, List.length_singleton]
          exact hb
        · rw [if_neg hble, List.length_cons]
          have := ih (b - 1) (by omega)
          omega

/-- Claim C10, counterexample. With `max_items = 0` the break fires only
after the first append, so one matching post yields one item: the output
length exceeds `max_items`. -/
theorem c10_counterexample_zero_cap :
    (fetch_whitehouse_list WHITEHOUSE_EO_URL [pGood] 0).length = 1
    ∧ ¬ ((fetch_whitehouse_list WHITEHOUSE_EO_URL [pGood] 0).length ≤ 0) := by
  refine ⟨?_, ?_⟩ <;> decide

/-- Claim C10, amended. For every page content and every `max_items ≥ 1`
(which includes the script's default of 20), the listing returned is a
sequence of length at most `max_items`; the bound fails only in the
degenerate `max_items = 0` case. -/
theorem c10_length_at_most_max_items (URL : String) (posts : List Post)
    (max_items : Nat) (hm : 1 ≤ max_items) :
    (fetch_whitehouse_list URL posts max_items).length ≤ max_items :=
  fetchGo_length_le (tipoOf URL) posts max_items hm

theorem c10_witness :
    1 ≤ 2
    ∧ (fetch_whitehouse_list WHITEHOUSE_EO_URL [pGood, pGood, pGood] 2).length
        ≤ 2 :=
  ⟨by decide,
    c10_length_at_most_max_items WHITEHOUSE_EO_URL [pGood, pGood, pGood] 2
      (by decide)⟩

/-- Sanity checks of the classification matcher on representative titles:
titles with a number after a recognized keyword match (alternative 1 requires
the literal `No`), and titles without a number token do not. -/
theorem extractNum_checks :
    extractNum "Executive Order No. 14100" = some "14100"
    ∧ extractNum "EO 123-4" = some "123-4"
    ∧ extractNum "Proclamation 10999" = some "10999"
    ∧ extractNum "Fact Sheet: Something" = none
    ∧ extractNum "Executive Order 14100" = none
    ∧ tipoOf WHITEHOUSE_PR_URL = "Proclamation"
    ∧ tipoOf WHITEHOUSE_EO_URL = "Executive Order" := by
  refine ⟨?_, ?_, ?_, ?_, ?_, ?_, ?_⟩ <;> decide
